import Mathlib

/- Shallow embedding of the spike-train analysis core of the `braingeneers`
package (file `braingeneers/analysis/analysis.py`; the legacy duplicate module
`braingeneers/analysis.py` is shadowed by the package on
`import braingeneers.analysis` and is noted where it differs).  Spike times,
durations and thresholds are modelled as rational numbers: every arithmetic
operation the verified claims rely on (comparisons, ceilings, the exact
substitution values 0, 1, 2) is exact in IEEE floating point as well.
`np.inf` appears only through its observable effect (a finite value divided
by infinity is zero), and `np.sqrt` is a parameter constrained only where a
claim needs it. -/

namespace Braingeneers

/-- Model of `np.sort` on a one-dimensional array: a stable sort of the list. -/
def npsort (l : List ℚ) : List ℚ := l.insertionSort (· ≤ ·)

/-- The data of a `SpikeData` object that the analysed claims depend on:
`train`, the per-unit lists of spike times, and `length`, the duration. -/
structure SpikeData where
  train : List (List ℚ)
  length : ℚ
  deriving DecidableEq

/-- The default `length` computed by `SpikeData.__init__` when none is given:
`max((t[-1] for t in self.train if len(t) > 0))`.  `none` models the
`ValueError` that `max` raises on an empty generator. -/
def default_length (train : List (List ℚ)) : Option ℚ :=
  (train.filterMap List.getLast?).max?

/-- The common tail of `SpikeData.__init__` after `self.train` is assigned:
each train is sorted and copied, the length defaults to the last spike time
over all trains (an error when every train is empty), and when a unit count
`N` is supplied, empty trains are appended up to `N`. -/
def SpikeData.init_tail (train0 : List (List ℚ)) (N : Option ℕ) (length? : Option ℚ) :
    Except String SpikeData :=
  let train := train0.map npsort
  let length? := match length? with
    | some l => some l
    | none => default_length train
  match length? with
  | none => .error "ValueError: max arg is an empty sequence"
  | some l =>
    let train := match N with
      | some n =>
        if train.length < n then train ++ List.replicate (n - train.length) [] else train
      | none => train
    .ok { train := train, length := l }

/-- Model of `_train_from_i_t_list` as invoked from the pairs branch of
`__init__`, where the index array holds spike-time values (rationals).  When
`N` is absent it is `idces.max() + 1` (`ValueError` on an empty array);
`range(N)` then needs an integer, so an integral maximum `m` gives
`N = m + 1` — clamped at zero for negative `m`, where `range` is empty — and
a non-integral maximum (a float index array) raises `TypeError`.  The
boolean-mask `IndexError` and the per-unit regrouping `times[idces == i]`
are as in `train_from_i_t_list`. -/
def train_from_i_t_list_q (idces times : List ℚ) (N : Option ℕ) :
    Except String (List (List ℚ)) := do
  let n : ℕ ← match N with
    | some n => pure n
    | none =>
      match idces.max? with
      | none => Except.error "ValueError: zero-size array to reduction operation"
      | some m =>
        if m.den = 1 then pure (m.num + 1).toNat
        else Except.error "TypeError: range expects an integer"
  if n ≠ 0 ∧ idces.length ≠ times.length then
    Except.error "IndexError: boolean index did not match indexed array"
  else
    Except.ok ((List.range n).map (fun i =>
      ((idces.zip times).filter (fun q => decide (q.1 = (i : ℚ)))).map Prod.snd))

/-- Construction of a `SpikeData` from a single list argument (`__init__`,
`arg2 = None` branch, for inputs that are lists of number lists): when every
element of `arg1` has length exactly 2 (`all(len(arg) == 2)`, which is also
true of the empty list), the input is reinterpreted as a list of
`(channel, time)` pairs and regrouped through `_train_from_i_t_list`;
otherwise it is taken as one spike train per unit.  Then the common
`__init__` tail runs. -/
def SpikeData.init (arg1 : List (List ℚ)) (N : Option ℕ) (length? : Option ℚ) :
    Except String SpikeData :=
  let parsed : Except String (List (List ℚ)) :=
    if arg1.all (fun arg => arg.length = 2) then
      train_from_i_t_list_q (arg1.map (fun arg => arg.headD 0))
        (arg1.map (fun arg => arg.getD 1 0)) N
    else
      .ok arg1
  match parsed with
  | .error msg => .error msg
  | .ok train => SpikeData.init_tail train N length?

/-- Model of `_train_from_i_t_list(idces, times, N)`.  When `N` is absent it
is `idces.max() + 1` (`.error` models the `ValueError` of `max` on an empty
array).  The body evaluates `times[idces == i]` for each `i < N`; numpy
boolean-mask indexing raises an `IndexError` when the mask and the indexed
array have different lengths, which the guard models (the loop body only runs
when `N > 0`).  No check of any kind is applied to the values in `times`. -/
def train_from_i_t_list (idces : List ℕ) (times : List ℚ) (N : Option ℕ) :
    Except String (List (List ℚ)) :=
  let N? : Option ℕ := match N with
    | some n => some n
    | none => idces.max?.map (· + 1)
  match N? with
  | none => .error "ValueError: zero-size array to reduction operation"
  | some n =>
    if n ≠ 0 ∧ idces.length ≠ times.length then
      .error "IndexError: boolean index did not match indexed array"
    else
      .ok ((List.range n).map (fun i =>
        ((idces.zip times).filter (fun q => decide (q.1 = i))).map Prod.snd))

/-- Construction of a `SpikeData` from parallel index/time lists (`__init__`,
two-argument branch): the trains come from `_train_from_i_t_list`, then the
common tail of `__init__` (sorting, default length, padding) runs — this
branch does not apply the pairs reinterpretation. -/
def SpikeData.init_idces_times (idces : List ℕ) (times : List ℚ) (N : Option ℕ)
    (length? : Option ℚ) : Except String SpikeData := do
  let tr ← train_from_i_t_list idces times N
  SpikeData.init_tail tr N length?

/-- Model of `SpikeData.subtime(start, end)`.  (`None`/`Ellipsis` bounds are
resolved to `0`/`self.length` before this point and are not modelled.)
`lower = start if start > 0 else -inf`, so the kept range is `(start, end]`
except that the lower comparison is a no-op when `start ≤ 0`.  The result is
rebuilt through the constructor
(`SpikeData(train, length=end-start, N=self.N, ...)`), which re-sorts every
train — and, when every filtered train happens to contain exactly two
spikes, reinterprets the train list as `(channel, time)` pairs. -/
def SpikeData.subtime (sd : SpikeData) (start e : ℚ) : Except String SpikeData :=
  let s := if start < 0 then start + sd.length else start
  let e := if e < 0 then e + sd.length else if e > sd.length then sd.length else e
  let train := sd.train.map (fun ts =>
    (ts.filter (fun t => (!decide (s > 0) || decide (t > s)) && decide (t ≤ e))).map
      (fun t => t - s))
  SpikeData.init train (some sd.train.length) (some (e - s))

/-- Model of `np.clip(i, lo, hi)` on integers (lower bound applied first). -/
def np_clip (i lo hi : ℤ) : ℤ := min (max i lo) hi

/-- The raw bin index `np.ceil(t / bin_size) - 1` of `sparse_raster`. -/
def bin_index (bin_size t : ℚ) : ℤ := ⌈t / bin_size⌉ - 1

/-- The bin count `int(np.ceil(self.length / bin_size))` of `sparse_raster`. -/
def SpikeData.nbins (sd : SpikeData) (bin_size : ℚ) : ℕ :=
  ⌈sd.length / bin_size⌉.toNat

/-- Model of `SpikeData.sparse_raster(bin_size)` as a list of rows: entry
`(i, j)` of the CSR array built from `values = 1`,
`indices = ceil(t/bin_size) - 1` clipped into `[0, nbins-1]`, and per-train
`indptr`, is the number of spikes of train `i` whose clipped bin index is `j`. -/
def SpikeData.sparse_raster (sd : SpikeData) (bin_size : ℚ) : List (List ℕ) :=
  let n := sd.nbins bin_size
  sd.train.map (fun ts =>
    (List.range n).map (fun j =>
      (ts.filter (fun t =>
        decide (np_clip (bin_index bin_size t) 0 ((n : ℤ) - 1) = (j : ℤ)))).length))

/-- Model of `SpikeData.binned(bin_size) = sparse_raster(bin_size).sum(0)`:
per-bin totals over all units. -/
def SpikeData.binned (sd : SpikeData) (bin_size : ℚ) : List ℕ :=
  (List.range (sd.nbins bin_size)).map (fun j =>
    ((sd.sparse_raster bin_size).map (fun row => row.getD j 0)).sum)

/-- Model of `_sttc_ta(tA, delt, tmax)`: total time within `delt` of a spike. -/
def sttc_ta (tA : List ℚ) (delt tmax : ℚ) : ℚ :=
  match tA with
  | [] => 0
  | t0 :: rest =>
    min delt t0 + min delt (tmax - rest.getLastD t0)
      + (((t0 :: rest).zip rest).map (fun q => min (q.2 - q.1) (2 * delt))).sum

/-- Model of `np.searchsorted(a, v)` (left insertion point) for sorted `a`. -/
def searchsorted (a : List ℚ) (v : ℚ) : ℕ :=
  (a.takeWhile (fun x => decide (x < v))).length

/-- Model of `_sttc_na(tA, tB, delt)`: the number of spikes of `tA` within
`delt` of some spike of `tB`, found via the clipped insertion point in `tB`. -/
def sttc_na (tA tB : List ℚ) (delt : ℚ) : ℕ :=
  if tB.isEmpty then 0
  else
    (tA.filter (fun t =>
      let iB := (np_clip (searchsorted tB t) 1 ((tB.length : ℤ) - 1)).toNat
      let dt_left := |tB.getD iB 0 - t|
      let dt_right := |tB.getD (iB - 1) 0 - t|
      decide (min dt_left dt_right ≤ delt))).length

/-- Model of `SpikeData.spike_time_tiling(i, j, delt)` (package version): an
empty train on either side short-circuits to `0.0` before any arithmetic.
(The legacy module instead substitutes `P = 1.0` for an empty train; it is
shadowed by the package and not modelled.) -/
def SpikeData.spike_time_tiling (sd : SpikeData) (i j : ℕ) (delt : ℚ) : ℚ :=
  let tA := sd.train.getD i []
  let tB := sd.train.getD j []
  if tA.isEmpty || tB.isEmpty then 0
  else
    let TA := sttc_ta tA delt sd.length / sd.length
    let TB := sttc_ta tB delt sd.length / sd.length
    let PA := (sttc_na tA tB delt : ℚ) / (tA.length : ℚ)
    let PB := (sttc_na tB tA delt : ℚ) / (tB.length : ℚ)
    let aa := if PA * TB ≠ 1 then (PA - TB) / (1 - PA * TB) else 0
    let bb := if PB * TA ≠ 1 then (PB - TA) / (1 - PB * TA) else 0
    (aa + bb) / 2

/-- Positions `i` with `active[i] ≠ active[i+1]`, ascending: the model of
`toggles = np.where(np.diff(active))[0]` in `SpikeData.avalanches`. -/
def togglesR {α : Type} (p : α → Bool) : List α → List ℕ
  | [] => []
  | [_] => []
  | c1 :: c2 :: cs =>
    (if p c1 != p c2 then [0] else []) ++ (togglesR p (c2 :: cs)).map (· + 1)

/-- Elements at even positions: the model of stride slicing `l[::2]` (so that
`l[1::2]` is `everyOther l.tail` and `l[2::2]` is `everyOther l.tail.tail`). -/
def everyOther {α : Type} : List α → List α
  | [] => []
  | [x] => [x]
  | x :: _ :: rest => x :: everyOther rest

/-- The slices `counts[up + 1 : down + 1]` for the zipped toggle pairs. -/
def toggle_slices {α : Type} (counts : List α) (ups downs : List ℕ) : List (List α) :=
  (ups.zip downs).map (fun q => (counts.drop (q.1 + 1)).take (q.2 - q.1))

/-- The value `active[0]` of `SpikeData.avalanches` (`false` on `[]`, where
the source would raise `IndexError`; `binned` output is nonempty whenever the
recording has positive length). -/
def first_active {α : Type} (p : α → Bool) : List α → Bool
  | [] => false
  | c :: _ => p c

/-- Model of the body of `SpikeData.avalanches` on an arbitrary count
sequence with activity predicate `p` (`count > thresh`): toggle positions are
paired into `(up, down)` transitions, skipping the first toggle when the
sequence starts active, and each pair is sliced out of `counts`. -/
def avalanches_from {α : Type} (p : α → Bool) (counts : List α) : List (List α) :=
  let toggles := togglesR p counts
  if first_active p counts then
    toggle_slices counts (everyOther toggles.tail) (everyOther toggles.tail.tail)
  else
    toggle_slices counts (everyOther toggles) (everyOther toggles.tail)

/-- Model of `SpikeData.avalanches(thresh, bin_size)`. -/
def SpikeData.avalanches (sd : SpikeData) (thresh bin_size : ℚ) : List (List ℕ) :=
  avalanches_from (fun c => decide ((c : ℚ) > thresh)) (sd.binned bin_size)

/-- Model of `SpikeData.avalanche_duration_size(thresh, bin_size)`. -/
def SpikeData.avalanche_duration_size (sd : SpikeData) (thresh bin_size : ℚ) :
    List ℕ × List ℕ :=
  ((sd.avalanches thresh bin_size).map List.length,
   (sd.avalanches thresh bin_size).map List.sum)

/-- State of the specification-side avalanche segmentation machine: still
skipping a run that was already active at the start, idle after an observed
inactive bin, or inside a run with the counts accumulated so far. -/
inductive AvMode (α : Type) where
  | skipInit : AvMode α
  | idle : AvMode α
  | inRun (acc : List α) : AvMode α

/-- Specification-side segmentation machine, written from the spec text (the
comparison target for the refinement claim about `avalanches`): a run already
active at the start is skipped (its onset is unobserved), a run begins only at
an observed inactive-to-active transition, is emitted at an observed
active-to-inactive transition, and is dropped when the sequence ends while
still active. -/
def avSpecGo {α : Type} (p : α → Bool) : AvMode α → List α → List (List α)
  | _, [] => []
  | .skipInit, c :: cs =>
    if p c then avSpecGo p .skipInit cs else avSpecGo p .idle cs
  | .idle, c :: cs =>
    if p c then avSpecGo p (.inRun [c]) cs else avSpecGo p .idle cs
  | .inRun acc, c :: cs =>
    if p c then avSpecGo p (.inRun (acc ++ [c])) cs else acc :: avSpecGo p .idle cs

/-- The maximal interior super-threshold runs, per the spec text. -/
def avalanchesSpec {α : Type} (p : α → Bool) (counts : List α) : List (List α) :=
  avSpecGo p .skipInit counts

/-- Model of `np.quantile(data, q)` with the default linear-interpolation
method, on integer count data.  (`np.quantile` rejects empty input; the `0`
returned here for `[]` is never relied on.) -/
def np_quantile (data : List ℕ) (q : ℚ) : ℚ :=
  let s := npsort (data.map (fun c => (c : ℚ)))
  if s.length = 0 then 0
  else
    let h := q * ((s.length : ℚ) - 1)
    s.getD ⌊h⌋.toNat 0 + (h - ⌊h⌋) * (s.getD ⌈h⌉.toNat 0 - s.getD ⌊h⌋.toNat 0)

/-- Result record of `deviation_from_criticality`; `dcc = none` encodes the
`np.inf` sentinel. -/
structure DCCResult where
  dcc : Option ℚ
  p_size : ℚ
  p_duration : ℚ
  deriving DecidableEq

/-- Model of `SpikeData.deviation_from_criticality(quantile, bin_size, N, pval)`.
The statistical tail (`_p_and_alpha`, which calls the external `powerlaw`
fitting library with surrogate sampling, and the `np.polyfit` slope of
`log(size)` against `log(duration)`) is randomized and transcendental and enters
as the parameters `p_and_alpha` and `polyfit_slope`; the zero-avalanche branch
under verification never reaches them. -/
def SpikeData.deviation_from_criticality
    (p_and_alpha : List ℕ → ℚ × ℚ) (polyfit_slope : List ℕ → List ℕ → ℚ)
    (sd : SpikeData) (quantile bin_size : ℚ) : DCCResult :=
  let thresh := np_quantile (sd.binned bin_size) quantile
  let ds := sd.avalanche_duration_size thresh bin_size
  if ds.1.isEmpty then { dcc := none, p_size := 1, p_duration := 1 }
  else
    let ps := p_and_alpha ds.2
    let pd := p_and_alpha ds.1
    let τ_fit := polyfit_slope ds.1 ds.2
    let τ_pred := (pd.2 - 1) / (ps.2 - 1)
    { dcc := some |τ_pred - τ_fit|, p_size := ps.1, p_duration := pd.1 }

/-- The divisor actually used by `fano_factors`: the per-row mean after the
substitution `mean[mean == 0] = 1`, applied before any division. -/
def adjusted_mean (row : List ℚ) : ℚ :=
  let mean := row.sum / (row.length : ℚ)
  if mean = 0 then 1 else mean

/-- Row body of the sparse branch of `fano_factors`: `moment/mean - mean`
after the substitutions `moment[mean == 0] = 2` and `mean[mean == 0] = 1`. -/
def fano_row_sparse (row : List ℚ) : ℚ :=
  let mean := row.sum / (row.length : ℚ)
  let moment := (row.map (fun x => x * x)).sum / (row.length : ℚ)
  (if mean = 0 then 2 else moment) / adjusted_mean row - adjusted_mean row

/-- Row body of the dense branch of `fano_factors`: `var/mean` after the
chained substitution `mean[mean == 0] = var[mean == 0] = 1.0`.  Python
assigns the targets left to right: `mean` is substituted first, so the
second mask `mean == 0` is re-evaluated on the already-updated `mean` and is
all-False — `var` is never substituted.  The shadowing `let`s mirror the two
mutations in order. -/
def fano_row_dense (row : List ℚ) : ℚ :=
  let mean := row.sum / (row.length : ℚ)
  let var := (row.map (fun x => (x - mean) ^ 2)).sum / (row.length : ℚ)
  let mean := if mean = 0 then 1 else mean
  let var := if mean = 0 then 1 else var
  var / mean

/-- Model of `fano_factors(raster)` on a sparse raster. -/
def fano_factors_sparse (raster : List (List ℚ)) : List ℚ := raster.map fano_row_sparse

/-- Model of `fano_factors(raster)` on a dense raster. -/
def fano_factors_dense (raster : List (List ℚ)) : List ℚ := raster.map fano_row_dense

/-- Row mean `Ex = spikes.mean(axis=1)` of `pearson`. -/
def pearson_Ex (spikes : List (List ℚ)) (i : ℕ) : ℚ :=
  (spikes.getD i []).sum / (((spikes.headD []).length : ℕ) : ℚ)

/-- Second moment `Ex2 = (spikes**2).mean(axis=1)` of `pearson`. -/
def pearson_Ex2 (spikes : List (List ℚ)) (i : ℕ) : ℚ :=
  ((spikes.getD i []).map (fun x => x * x)).sum / (((spikes.headD []).length : ℕ) : ℚ)

/-- Standard deviation `σx = np.sqrt(Ex2 - Ex**2)` of `pearson`; `sqrtf`
stands for `np.sqrt`. -/
def pearson_σ (sqrtf : ℚ → ℚ) (spikes : List (List ℚ)) (i : ℕ) : ℚ :=
  sqrtf (pearson_Ex2 spikes i - pearson_Ex spikes i ^ 2)

/-- Cross moment `Exy = (spikes @ spikes.T) / spikes.shape[1]` of `pearson`. -/
def pearson_Exy (spikes : List (List ℚ)) (i j : ℕ) : ℚ :=
  (((spikes.getD i []).zip (spikes.getD j [])).map (fun q => q.1 * q.2)).sum /
    (((spikes.headD []).length : ℕ) : ℚ)

/-- One entry of the `pearson` matrix.  `σx[σx == 0] = np.inf` is modelled by
its observable effect: the finite numerator `Exy - Exx` divided by an
infinite `σxx` gives exactly `0` (second branch); afterwards the diagonal is
overwritten with `1` by `np.fill_diagonal(corr, 1)` (first branch). -/
def pearson_entry (sqrtf : ℚ → ℚ) (spikes : List (List ℚ)) (i j : ℕ) : ℚ :=
  if i = j then 1
  else if pearson_σ sqrtf spikes i = 0 ∨ pearson_σ sqrtf spikes j = 0 then 0
  else (pearson_Exy spikes i j - pearson_Ex spikes i * pearson_Ex spikes j) /
    (pearson_σ sqrtf spikes i * pearson_σ sqrtf spikes j)

/-- The sparse-raster branch of `pearson(spikes)`: the repository's own
algebraic formula, entry by entry. -/
def pearson_sparse (sqrtf : ℚ → ℚ) (spikes : List (List ℚ)) : List (List ℚ) :=
  (List.range spikes.length).map (fun i =>
    (List.range spikes.length).map (fun j => pearson_entry sqrtf spikes i j))

/-- Model of the external `np.corrcoef(spikes)` as invoked by the dense
branch of `pearson`: the normalized covariance `cov(i,j) / (σi·σj)`, where
`σi² = cov(i,i)` (the estimator's `1/(n-1)` normalization cancels in the
quotient) and defined entries are clipped into `[-1, 1]`.  A zero-variance
row makes the quotient `0/0`: NaN, encoded as `none`. -/
def np_corrcoef (sqrtf : ℚ → ℚ) (spikes : List (List ℚ)) : List (List (Option ℚ)) :=
  let nb := (spikes.headD []).length
  let row := fun i => spikes.getD i []
  let mean := fun i => (row i).sum / ((nb : ℕ) : ℚ)
  let cov := fun i j =>
    (((row i).zip (row j)).map (fun q => (q.1 - mean i) * (q.2 - mean j))).sum /
      ((nb : ℕ) : ℚ)
  (List.range spikes.length).map (fun i =>
    (List.range spikes.length).map (fun j =>
      if cov i i = 0 ∨ cov j j = 0 then none
      else some (min 1 (max (-1) (cov i j / sqrtf (cov i i * cov j j))))))

/-- Model of `pearson(spikes)` with the representation of the input made
explicit as the flag `issparse`: a dense raster falls back on the external
`np.corrcoef` (whose entries may be NaN, hence `Option ℚ`), a sparse raster
uses the repository's own always-defined formula. -/
def pearson (sqrtf : ℚ → ℚ) (issparse : Bool) (spikes : List (List ℚ)) :
    List (List (Option ℚ)) :=
  if !issparse then np_corrcoef sqrtf spikes
  else (pearson_sparse sqrtf spikes).map (List.map some)

/-! Helper lemmas shared by several claims. -/

section Verification

/- Core marks the rational arithmetic operations irreducible, which blocks
`decide`-based evaluation at concrete inputs; re-enable unfolding locally.
(This affects elaboration only; every proof still passes the kernel.) -/
attribute [local semireducible] Rat.inv Rat.add Rat.mul Rat.sub

lemma getD_map_lt {α β : Type} (f : α → β) (l : List α) {i : ℕ} (h : i < l.length)
    (d : α) (d' : β) : (l.map f).getD i d' = f (l.getD i d) := by
  rw [List.getD_eq_getElem _ _ (by simpa using h), List.getD_eq_getElem _ _ h,
    List.getElem_map]

lemma getD_map_range {β : Type} (g : ℕ → β) {n i : ℕ} (h : i < n) (d : β) :
    ((List.range n).map g).getD i d = g i := by
  rw [List.getD_eq_getElem _ _ (by simpa using h), List.getElem_map, List.getElem_range]

lemma max?_spec {l : List ℚ} (h : l ≠ []) :
    ∃ M, l.max? = some M ∧ M ∈ l ∧ ∀ x ∈ l, x ≤ M := by
  cases hl : l.max? with
  | none => exact absurd (List.max?_eq_none_iff.mp hl) h
  | some M =>
    refine ⟨M, rfl, List.max?_mem (fun a b => max_choice a b) hl, ?_⟩
    exact (List.max?_le_iff (fun a b c => max_le_iff) hl).mp (le_refl M)

lemma mem_of_getLast?_eq_some {l : List ℚ} {M : ℚ} (h : l.getLast? = some M) : M ∈ l := by
  cases l with
  | nil => simp at h
  | cons a l' =>
    rw [List.getLast?_eq_getLast _ (by simp)] at h
    exact Option.some_injective _ h ▸ List.getLast_mem _

lemma le_of_mem_sorted_getLast? {l : List ℚ} (hs : List.Sorted (· ≤ ·) l) {x : ℚ}
    (hx : x ∈ l) : ∃ M, l.getLast? = some M ∧ x ≤ M := by
  induction l with
  | nil => cases hx
  | cons a l ih =>
    rcases List.sorted_cons.mp hs with ⟨ha, hs'⟩
    cases l with
    | nil =>
      rw [List.mem_singleton.mp hx]
      exact ⟨a, rfl, le_refl a⟩
    | cons b l' =>
      rcases List.mem_cons.mp hx with rfl | hx'
      · have hne : b :: l' ≠ [] := by simp
        refine ⟨(b :: l').getLast hne, ?_, ha _ (List.getLast_mem hne)⟩
        rw [List.getLast?_cons_cons]
        exact List.getLast?_eq_getLast _ hne
      · rcases ih hs' hx' with ⟨M, h1, h2⟩
        exact ⟨M, by rw [List.getLast?_cons_cons]; exact h1, h2⟩

lemma npsort_perm (l : List ℚ) : (npsort l).Perm l := List.perm_insertionSort _ l

lemma npsort_sorted (l : List ℚ) : List.Sorted (· ≤ ·) (npsort l) :=
  List.sorted_insertionSort _ l

lemma npsort_nil : npsort [] = [] := rfl

/-! Claim C3. -/

/-- Claim C3: for every pair of units `(i, j)` where train `i` or train `j`
is empty, the pairwise STTC value is exactly `0.0` — a defined substitution
returned before any arithmetic is attempted, not an error. -/
theorem spike_time_tiling_empty_train (sd : SpikeData) (i j : ℕ) (delt : ℚ)
    (h : sd.train.getD i [] = [] ∨ sd.train.getD j [] = []) :
    sd.spike_time_tiling i j delt = 0 := by
  unfold SpikeData.spike_time_tiling
  rcases h with h | h <;>
    (rw [List.getD_eq_getElem?_getD] at h; simp [h])

/-- Witness for C3 at a concrete store: unit 0 is silent, unit 1 fires once. -/
theorem spike_time_tiling_empty_train_witness :
    ((⟨[[], [1]], 2⟩ : SpikeData).train.getD 0 [] = [] ∨
      (⟨[[], [1]], 2⟩ : SpikeData).train.getD 1 [] = []) ∧
    (⟨[[], [1]], 2⟩ : SpikeData).spike_time_tiling 0 1 20 = 0 :=
  ⟨Or.inl rfl, spike_time_tiling_empty_train ⟨[[], [1]], 2⟩ 0 1 20 (Or.inl rfl)⟩

/-! Claim C6 (code bug). -/

/-- Claim C6 (code bug): the sparse branch of `fano_factors` gives a silent
row Fano factor exactly `1` through substitutions applied before the
division, as the docstring promises; but in the dense branch the chained
assignment `mean[mean == 0] = var[mean == 0] = 1.0` substitutes `mean`
first, the second mask re-evaluates to all-False, `var` keeps `0`, and a
silent row yields exactly `0` — contradicting the function's own
documentation and the claim. -/
theorem fano_factors_silent_unit :
    fano_factors_sparse [[0, 0, 0]] = [1] ∧
    fano_factors_dense [[0, 0, 0]] = [0] := by
  constructor <;> decide

/-! Claim C7. -/

/-- Claim C7: whenever avalanche extraction at the quantile threshold of the
binned counts yields zero avalanches, `deviation_from_criticality` returns
exactly `DCCResult(dcc=inf, p_size=1.0, p_duration=1.0)` (with `none`
encoding `inf`), for every possible behaviour of the power-law fitting
procedure — which is therefore never consulted. -/
theorem deviation_from_criticality_no_avalanches
    (p_and_alpha : List ℕ → ℚ × ℚ) (polyfit_slope : List ℕ → List ℕ → ℚ)
    (sd : SpikeData) (q bs : ℚ)
    (h : (sd.avalanche_duration_size (np_quantile (sd.binned bs) q) bs).1 = []) :
    sd.deviation_from_criticality p_and_alpha polyfit_slope q bs =
      { dcc := none, p_size := 1, p_duration := 1 } := by
  unfold SpikeData.deviation_from_criticality
  simp [h]

/-- Witness for C7: a store with a single spike produces one all-active bin,
hence no observed avalanche, and the sentinel is returned for an arbitrary
stand-in fitting procedure. -/
theorem deviation_from_criticality_no_avalanches_witness :
    ((⟨[[1]], 1⟩ : SpikeData).avalanche_duration_size
        (np_quantile ((⟨[[1]], 1⟩ : SpikeData).binned 40) (35 / 100)) 40).1 = [] ∧
    (⟨[[1]], 1⟩ : SpikeData).deviation_from_criticality
        (fun _ => (0, 0)) (fun _ _ => 0) (35 / 100) 40 =
      { dcc := none, p_size := 1, p_duration := 1 } :=
  ⟨by decide,
   deviation_from_criticality_no_avalanches (fun _ => (0, 0)) (fun _ _ => 0)
     ⟨[[1]], 1⟩ (35 / 100) 40 (by decide)⟩

/-! Claim C8 (corrected). -/

/-- Counterexample to claim C8 as stated: constructing a `SpikeData` from the
parallel lists `idces = [0]`, `times = [-5]` succeeds and produces a store
containing the negative spike time, instead of failing with `InvalidInput`. -/
theorem init_idces_times_accepts_negative_time :
    SpikeData.init_idces_times [0] [-5] none none =
      .ok { train := [[-5]], length := -5 } := by
  rfl

/-- Claim C8 amended: construction from parallel index/time sequences fails
at construction time when the sequences have different lengths (through the
`IndexError` of numpy boolean-mask indexing, provided at least one unit is
processed), but the time values themselves are never validated: with equal
lengths, construction of the train list succeeds whatever the times are —
negative times included. -/
theorem train_from_i_t_list_length_check (idces : List ℕ) (times : List ℚ) :
    (idces ≠ [] → idces.length ≠ times.length →
      train_from_i_t_list idces times none =
        .error "IndexError: boolean index did not match indexed array") ∧
    (idces ≠ [] → idces.length = times.length →
      ∃ tr, train_from_i_t_list idces times none = .ok tr) := by
  have hmax : idces ≠ [] → ∃ m, idces.max? = some m := by
    intro hne
    cases hm : idces.max? with
    | none => exact absurd (List.max?_eq_none_iff.mp hm) hne
    | some m => exact ⟨m, rfl⟩
  constructor
  · intro hne hlen
    obtain ⟨m, hm⟩ := hmax hne
    unfold train_from_i_t_list
    simp only [hm, Option.map_some']
    rw [if_pos ⟨Nat.succ_ne_zero m, hlen⟩]
  · intro hne hlen
    obtain ⟨m, hm⟩ := hmax hne
    unfold train_from_i_t_list
    simp only [hm, Option.map_some']
    rw [if_neg (by simp [hlen])]
    exact ⟨_, rfl⟩

/-- Witness for C8: a length mismatch is rejected, and equal-length input
with a negative time is accepted. -/
theorem train_from_i_t_list_length_check_witness :
    (([0, 1] : List ℕ) ≠ [] ∧ ([0, 1] : List ℕ).length ≠ ([5] : List ℚ).length ∧
      train_from_i_t_list [0, 1] [5] none =
        .error "IndexError: boolean index did not match indexed array") ∧
    (([0] : List ℕ) ≠ [] ∧ ([0] : List ℕ).length = ([-5] : List ℚ).length ∧
      ∃ tr, train_from_i_t_list [0] [-5] none = .ok tr) :=
  ⟨⟨by decide, by decide,
    (train_from_i_t_list_length_check [0, 1] [5]).1 (by decide) (by decide)⟩,
   ⟨by decide, by decide,
    (train_from_i_t_list_length_check [0] [-5]).2 (by decide) (by decide)⟩⟩

/-! Claim C10 (corrected). -/

lemma init_tail_default_length (trains : List (List ℚ)) :
    ((∀ ts ∈ trains, ts = []) →
      SpikeData.init_tail trains none none =
        .error "ValueError: max arg is an empty sequence") ∧
    ((∃ ts ∈ trains, ts ≠ []) →
      ∃ sd, SpikeData.init_tail trains none none = .ok sd ∧
        sd.length ∈ trains.flatten ∧ ∀ t ∈ trains.flatten, t ≤ sd.length) := by
  constructor
  · intro h
    have hd : default_length (trains.map npsort) = none := by
      unfold default_length
      rw [List.max?_eq_none_iff, List.filterMap_eq_nil_iff]
      intro ts' hts'
      rcases List.mem_map.mp hts' with ⟨ts, hts, rfl⟩
      rw [h ts hts]
      rfl
    unfold SpikeData.init_tail
    simp only [hd]
  · intro h
    obtain ⟨ts₀, hts₀, hne₀⟩ := h
    have hlne : (trains.map npsort).filterMap List.getLast? ≠ [] := by
      intro hnil
      rw [List.filterMap_eq_nil_iff] at hnil
      have h0 := hnil (npsort ts₀) (List.mem_map_of_mem _ hts₀)
      rw [List.getLast?_eq_none_iff] at h0
      have hp := npsort_perm ts₀
      rw [h0] at hp
      exact hne₀ (hp.symm.eq_nil)
    obtain ⟨M, hM, hMmem, hMub⟩ := max?_spec hlne
    have hd : default_length (trains.map npsort) = some M := hM
    refine ⟨⟨trains.map npsort, M⟩, ?_, ?_, ?_⟩
    · unfold SpikeData.init_tail
      simp only [hd]
    · rcases List.mem_filterMap.mp hMmem with ⟨ts', hts', hlast⟩
      rcases List.mem_map.mp hts' with ⟨ts, hts, rfl⟩
      exact List.mem_flatten.mpr
        ⟨ts, hts, (npsort_perm ts).mem_iff.mp (mem_of_getLast?_eq_some hlast)⟩
    · intro t ht
      rcases List.mem_flatten.mp ht with ⟨ts, hts, htmem⟩
      obtain ⟨L, hL, htL⟩ :=
        le_of_mem_sorted_getLast? (npsort_sorted ts) ((npsort_perm ts).mem_iff.mpr htmem)
      have hLmem : L ∈ (trains.map npsort).filterMap List.getLast? :=
        List.mem_filterMap.mpr ⟨npsort ts, List.mem_map_of_mem _ hts, hL⟩
      exact le_trans htL (hMub L hLmem)

lemma init_not_pairs (trains : List (List ℚ)) (N : Option ℕ) (length? : Option ℚ)
    (h : trains.all (fun arg => decide (arg.length = 2)) = false) :
    SpikeData.init trains N length? = SpikeData.init_tail trains N length? := by
  unfold SpikeData.init
  simp only [h, Bool.false_eq_true, if_false]

/-- Counterexample to claim C10 as stated: `SpikeData([[5, 2]])` contains one
non-empty train whose maximum spike time is 5, but every element of the input
has length 2, so the constructor reinterprets it as the single
`(channel 5, time 2)` pair: the store gets six units (five of them silent)
and default length 2 — which is not even an upper bound of the input spike
times, let alone their maximum. -/
theorem init_pairs_reinterprets_single_train :
    SpikeData.init [[5, 2]] none none
      = .ok { train := [[], [], [], [], [], [2]], length := 2 } ∧
    ¬∀ t ∈ ([[(5 : ℚ), 2]] : List (List ℚ)).flatten, t ≤ 2 := by
  constructor
  · rfl
  · intro h
    have h5 := h 5 (by simp)
    norm_num at h5

/-- Claim C10 amended: with no explicit length, construction from a list in
which every train is empty fails (for a non-empty list through `max` of an
empty generator, for the empty list through `max` of the empty reinterpreted
index array); conversely, when some train is non-empty and the input is not
caught by the `(channel, time)`-pair reinterpretation (not every element of
the list has length exactly 2), the default length is the maximum spike time
across all trains. -/
theorem init_default_length (trains : List (List ℚ)) :
    ((∀ ts ∈ trains, ts = []) →
      ∃ msg, SpikeData.init trains none none = .error msg) ∧
    ((∃ ts ∈ trains, ts ≠ []) → ¬(∀ ts ∈ trains, ts.length = 2) →
      ∃ sd, SpikeData.init trains none none = .ok sd ∧
        sd.length ∈ trains.flatten ∧ ∀ t ∈ trains.flatten, t ≤ sd.length) := by
  constructor
  · intro h
    cases trains with
    | nil => exact ⟨_, rfl⟩
    | cons t₀ rest =>
      have h0 : t₀ = [] := h t₀ (List.mem_cons_self t₀ rest)
      have hall : (t₀ :: rest).all (fun arg => decide (arg.length = 2)) = false := by
        subst h0
        simp
      rw [init_not_pairs _ none none hall]
      exact ⟨_, (init_tail_default_length (t₀ :: rest)).1 h⟩
  · intro hne hnot2
    have hall : trains.all (fun arg => decide (arg.length = 2)) = false := by
      rw [← Bool.not_eq_true, List.all_eq_true]
      intro hallt
      exact hnot2 (fun ts hts => of_decide_eq_true (hallt ts hts))
    rw [init_not_pairs _ none none hall]
    exact (init_tail_default_length trains).2 hne

/-- Witness for C10: the all-empty store is rejected, and the store
`[[2, 1], []]` — not all of whose trains have length 2 — gets default
length 2, the maximum spike time. -/
theorem init_default_length_witness :
    (∃ msg, SpikeData.init [([] : List ℚ), []] none none = .error msg) ∧
    (∃ sd, SpikeData.init [[2, 1], ([] : List ℚ)] none none = .ok sd ∧
      sd.length ∈ ([[2, 1], ([] : List ℚ)] : List (List ℚ)).flatten ∧
      ∀ t ∈ ([[2, 1], ([] : List ℚ)] : List (List ℚ)).flatten, t ≤ sd.length) :=
  ⟨(init_default_length [[], []]).1 (by simp),
   (init_default_length [[2, 1], []]).2 ⟨[2, 1], by simp, by simp⟩
     (by
       intro hcon
       have h2 := hcon [] (by simp)
       simp at h2)⟩

/-! Claim C5 (corrected). -/

/-- Counterexample to claim C5 as stated: on a dense raster the program
returns `np.corrcoef(spikes)`, and for the silent (zero-variance) unit 0 of
`[[0, 0], [1, 2]]` the quotient is `0/0`: the diagonal entry itself is NaN
(`none`), not `1.0`. -/
theorem pearson_dense_silent_diag_nan :
    ((pearson (fun q => q) false [[0, 0], [1, 2]]).getD 0 []).getD 0 none = none ∧
    ((pearson (fun q => q) false [[0, 0], [1, 2]]).getD 0 []).getD 0 none ≠ some 1 := by
  refine ⟨rfl, ?_⟩
  decide

/-- Claim C5 amended: on a sparse raster the repository's own formula makes
every diagonal entry exactly `1` (forced by `fill_diagonal`) and every
off-diagonal entry in the row of a non-firing unit exactly `0` (zero standard
deviation replaced by infinity); on a dense raster the program delegates to
`np.corrcoef`, where every entry of a non-firing unit's row — the diagonal
included — is NaN.  `sqrtf` models `np.sqrt`, constrained only by
`sqrt 0 = 0`. -/
theorem pearson_diag_one_and_silent_row_zero (sqrtf : ℚ → ℚ)
    (spikes : List (List ℚ)) (hsqrt : sqrtf 0 = 0) :
    (∀ i, i < spikes.length →
      ((pearson sqrtf true spikes).getD i []).getD i none = some 1) ∧
    (∀ i j, i < spikes.length → j < spikes.length → i ≠ j →
      (∀ t ∈ spikes.getD i [], t = 0) →
      ((pearson sqrtf true spikes).getD i []).getD j none = some 0) ∧
    (∀ i j, i < spikes.length → j < spikes.length →
      (∀ t ∈ spikes.getD i [], t = 0) →
      ((pearson sqrtf false spikes).getD i []).getD j none = none) := by
  have hentry : ∀ i j, i < spikes.length → j < spikes.length →
      ((pearson sqrtf true spikes).getD i []).getD j none
        = some (pearson_entry sqrtf spikes i j) := by
    intro i j hi hj
    show (((pearson_sparse sqrtf spikes).map (List.map some)).getD i []).getD j none
      = some (pearson_entry sqrtf spikes i j)
    unfold pearson_sparse
    rw [List.map_map, getD_map_range _ hi []]
    simp only [Function.comp_apply]
    rw [List.map_map, getD_map_range _ hj none]
    rfl
  refine ⟨?_, ?_, ?_⟩
  · intro i hi
    rw [hentry i i hi hi]
    unfold pearson_entry
    rw [if_pos rfl]
  · intro i j hi hj hij hzero
    rw [hentry i j hi hj]
    have hσ : pearson_σ sqrtf spikes i = 0 := by
      unfold pearson_σ pearson_Ex pearson_Ex2
      rw [List.sum_eq_zero hzero,
        List.sum_eq_zero (fun x hx => by
          rcases List.mem_map.mp hx with ⟨t, ht, rfl⟩
          rw [hzero t ht, mul_zero])]
      simpa using hsqrt
    unfold pearson_entry
    rw [if_neg hij, if_pos (Or.inl hσ)]
  · intro i j hi hj hzero
    show ((np_corrcoef sqrtf spikes).getD i []).getD j none = none
    unfold np_corrcoef
    rw [getD_map_range _ hi [], getD_map_range _ hj none]
    have hmean : (spikes.getD i []).sum / (((spikes.headD []).length : ℕ) : ℚ) = 0 := by
      rw [List.sum_eq_zero hzero, zero_div]
    refine if_pos (Or.inl ?_)
    dsimp only
    rw [List.sum_eq_zero, zero_div]
    intro x hx
    rcases List.mem_map.mp hx with ⟨q, hq, rfl⟩
    obtain ⟨h1, h2⟩ := List.of_mem_zip hq
    rw [hzero _ h1, hzero _ h2, hmean]
    norm_num

/-- Witness for C5 at the raster `[[0, 0], [1, 2]]` with silent unit 0:
sparse diagonal 1, sparse off-diagonal 0, dense row NaN. -/
theorem pearson_diag_one_and_silent_row_zero_witness :
    ((fun _ : ℚ => (0 : ℚ)) 0 = 0) ∧
    ((pearson (fun _ => 0) true [[0, 0], [1, 2]]).getD 0 []).getD 0 none = some 1 ∧
    ((pearson (fun _ => 0) true [[0, 0], [1, 2]]).getD 1 []).getD 1 none = some 1 ∧
    ((pearson (fun _ => 0) true [[0, 0], [1, 2]]).getD 0 []).getD 1 none = some 0 ∧
    ((pearson (fun _ => 0) false [[0, 0], [1, 2]]).getD 0 []).getD 1 none = none := by
  have h := pearson_diag_one_and_silent_row_zero (fun _ => 0) [[0, 0], [1, 2]] rfl
  exact ⟨rfl, h.1 0 (by decide), h.1 1 (by decide),
    h.2.1 0 1 (by decide) (by decide) (by decide) (by decide),
    h.2.2 0 1 (by decide) (by decide) (by decide)⟩

/-! Claims C2 and C9: binning. -/

lemma list_sum_range (f : ℕ → ℕ) (n : ℕ) :
    ((List.range n).map f).sum = ∑ j ∈ Finset.range n, f j := by
  induction n with
  | zero => simp
  | succ n ih =>
    rw [List.range_succ, List.map_append, List.sum_append, Finset.sum_range_succ, ih]
    simp

lemma sum_range_filter_length_int {α : Type} (f : α → ℤ) (n : ℕ) (l : List α)
    (h : ∀ a ∈ l, 0 ≤ f a ∧ f a < (n : ℤ)) :
    ((List.range n).map
      (fun j : ℕ => (l.filter (fun a => decide (f a = (j : ℤ)))).length)).sum = l.length := by
  rw [list_sum_range]
  induction l with
  | nil => simp
  | cons a l ih =>
    have ha := h a (List.mem_cons_self a l)
    have hl : ∀ x ∈ l, 0 ≤ f x ∧ f x < (n : ℤ) :=
      fun x hx => h x (List.mem_cons_of_mem a hx)
    have hstep : ∀ j : ℕ, ((a :: l).filter (fun x => decide (f x = (j : ℤ)))).length
        = (if (f a).toNat = j then 1 else 0)
          + (l.filter (fun x => decide (f x = (j : ℤ)))).length := by
      intro j
      by_cases hj : (f a).toNat = j
      · have hd : decide (f a = (j : ℤ)) = true := by
          rw [decide_eq_true_iff]
          omega
        rw [List.filter_cons, if_pos hd, if_pos hj, List.length_cons]
        omega
      · have hd : ¬decide (f a = (j : ℤ)) = true := by
          rw [decide_eq_true_iff]
          omega
        rw [List.filter_cons, if_neg hd, if_neg hj]
        omega
    calc ∑ j ∈ Finset.range n, ((a :: l).filter (fun x => decide (f x = (j : ℤ)))).length
        = ∑ j ∈ Finset.range n, ((if (f a).toNat = j then 1 else 0)
            + (l.filter (fun x => decide (f x = (j : ℤ)))).length) :=
          Finset.sum_congr rfl (fun j _ => hstep j)
      _ = (∑ j ∈ Finset.range n, if (f a).toNat = j then 1 else 0)
            + ∑ j ∈ Finset.range n, (l.filter (fun x => decide (f x = (j : ℤ)))).length :=
          Finset.sum_add_distrib
      _ = 1 + l.length := by
          rw [Finset.sum_ite_eq, if_pos (Finset.mem_range.mpr (by omega)), ih hl]
      _ = (a :: l).length := by
          rw [List.length_cons]
          omega

lemma nbins_cast (sd : SpikeData) (bin_size : ℚ) (hbs : 0 < bin_size)
    (hlen : 0 < sd.length) :
    ((sd.nbins bin_size : ℕ) : ℤ) = ⌈sd.length / bin_size⌉ := by
  unfold SpikeData.nbins
  exact Int.toNat_of_nonneg (le_of_lt (Int.ceil_pos.mpr (div_pos hlen hbs)))

/-- Claim C2: with a positive bin size and positive recording length, a spike
at time `0 < t ≤ length` lands in bin `ceil(t / bin_size) - 1` (the clip is
the identity there), a spike at exactly `t = 0` lands in bin `0`, every
computed index is clamped into `[0, nbins - 1]`, the raster has exactly
`ceil(length / bin_size)` bins per row, and the worked example: times
`[0, 5, 10]` with `bin_size = 5` and `length = 10` give two bins with counts
`[2, 1]`. -/
theorem sparse_raster_bin_rule (sd : SpikeData) (bin_size : ℚ)
    (hbs : 0 < bin_size) (hlen : 0 < sd.length) :
    (∀ t : ℚ, 0 < t → t ≤ sd.length →
      np_clip (bin_index bin_size t) 0 ((sd.nbins bin_size : ℤ) - 1)
        = ⌈t / bin_size⌉ - 1) ∧
    (np_clip (bin_index bin_size 0) 0 ((sd.nbins bin_size : ℤ) - 1) = 0) ∧
    (∀ t : ℚ, 0 ≤ np_clip (bin_index bin_size t) 0 ((sd.nbins bin_size : ℤ) - 1) ∧
      np_clip (bin_index bin_size t) 0 ((sd.nbins bin_size : ℤ) - 1)
        < (sd.nbins bin_size : ℤ)) ∧
    (∀ i, i < sd.train.length →
      ((sd.sparse_raster bin_size).getD i []).length = sd.nbins bin_size) ∧
    (⟨[[0, 5, 10]], 10⟩ : SpikeData).sparse_raster 5 = [[2, 1]] := by
  have hceil := nbins_cast sd bin_size hbs hlen
  have hpos : 0 < ⌈sd.length / bin_size⌉ := Int.ceil_pos.mpr (div_pos hlen hbs)
  refine ⟨?_, ?_, ?_, ?_, ?_⟩
  · intro t ht hle
    have h1 : (1 : ℤ) ≤ ⌈t / bin_size⌉ := Int.ceil_pos.mpr (div_pos ht hbs)
    have h2 : ⌈t / bin_size⌉ ≤ ⌈sd.length / bin_size⌉ := by gcongr
    unfold np_clip bin_index
    rw [hceil, max_eq_left (by omega), min_eq_left (by omega)]
  · have hz : bin_index bin_size 0 = -1 := by
      unfold bin_index
      rw [zero_div, Int.ceil_zero]
      decide
    unfold np_clip
    rw [hz, hceil, max_eq_right (by omega), min_eq_left (by omega)]
  · intro t
    unfold np_clip
    constructor
    · exact le_min (le_max_right _ _) (by omega)
    · exact lt_of_le_of_lt (min_le_right _ _) (by omega)
  · intro i hi
    unfold SpikeData.sparse_raster
    rw [getD_map_lt _ _ hi []]
    rw [List.length_map, List.length_range]
  · decide

/-- Witness for C2 at the worked example store. -/
theorem sparse_raster_bin_rule_witness :
    ((0 : ℚ) < 5 ∧ (0 : ℚ) < (⟨[[0, 5, 10]], 10⟩ : SpikeData).length) ∧
    np_clip (bin_index 5 5) 0 (((⟨[[0, 5, 10]], 10⟩ : SpikeData).nbins 5 : ℤ) - 1)
      = ⌈(5 : ℚ) / 5⌉ - 1 ∧
    np_clip (bin_index 5 0) 0 (((⟨[[0, 5, 10]], 10⟩ : SpikeData).nbins 5 : ℤ) - 1) = 0 ∧
    (⟨[[0, 5, 10]], 10⟩ : SpikeData).sparse_raster 5 = [[2, 1]] := by
  have h := sparse_raster_bin_rule ⟨[[0, 5, 10]], 10⟩ 5 (by norm_num) (by norm_num)
  exact ⟨⟨by norm_num, by norm_num⟩, h.1 5 (by norm_num) (by norm_num), h.2.1, h.2.2.2.2⟩

/-- Claim C9: for every store whose spikes respect the data-model invariant
(`t ≤ length`), every positive bin size and positive length, the sum of each
unit's raster row equals that unit's spike count — every spike is counted in
exactly one (clamped) bin.  (With `length = 0` there are no bins at all and
the source's sparse constructor rejects the clipped index `-1`, so the claim
is read over rasters that exist.) -/
theorem sparse_raster_row_sum (sd : SpikeData) (bin_size : ℚ) (i : ℕ)
    (hbs : 0 < bin_size) (hlen : 0 < sd.length)
    (hinv : ∀ ts ∈ sd.train, ∀ t ∈ ts, t ≤ sd.length) :
    ((sd.sparse_raster bin_size).getD i []).sum = (sd.train.getD i []).length := by
  have hceil := nbins_cast sd bin_size hbs hlen
  have hpos : 0 < ⌈sd.length / bin_size⌉ := Int.ceil_pos.mpr (div_pos hlen hbs)
  by_cases hi : i < sd.train.length
  · unfold SpikeData.sparse_raster
    rw [getD_map_lt _ _ hi []]
    refine sum_range_filter_length_int _ _ _ ?_
    intro t _
    unfold np_clip
    constructor
    · exact le_min (le_max_right _ _) (by omega)
    · exact lt_of_le_of_lt (min_le_right _ _) (by omega)
  · have hi' : sd.train.length ≤ i := le_of_not_lt hi
    rw [List.getD_eq_default _ _ (by simpa [SpikeData.sparse_raster] using hi'),
      List.getD_eq_default _ _ hi']
    rfl

/-- Witness for C9 at the worked example store. -/
theorem sparse_raster_row_sum_witness :
    ((0 : ℚ) < 5 ∧ (0 : ℚ) < (⟨[[0, 5, 10]], 10⟩ : SpikeData).length ∧
      (∀ ts ∈ (⟨[[0, 5, 10]], 10⟩ : SpikeData).train, ∀ t ∈ ts,
        t ≤ (⟨[[0, 5, 10]], 10⟩ : SpikeData).length)) ∧
    (((⟨[[0, 5, 10]], 10⟩ : SpikeData).sparse_raster 5).getD 0 []).sum
      = ((⟨[[0, 5, 10]], 10⟩ : SpikeData).train.getD 0 []).length := by
  have hinv : ∀ ts ∈ (⟨[[0, 5, 10]], 10⟩ : SpikeData).train, ∀ t ∈ ts,
      t ≤ (⟨[[0, 5, 10]], 10⟩ : SpikeData).length := by
    intro ts hts t ht
    rcases List.mem_singleton.mp hts with rfl
    simp only [List.mem_cons, List.mem_singleton, List.not_mem_nil, or_false] at ht
    rcases ht with rfl | rfl | rfl <;> norm_num
  exact ⟨⟨by norm_num, by norm_num, hinv⟩,
    sparse_raster_row_sum ⟨[[0, 5, 10]], 10⟩ 5 0 (by norm_num) (by norm_num) hinv⟩

/-! Claim C1 (code bug): time slicing. -/

/-- Claim C1 (code bug): `subtime` rebuilds the slice through the
constructor, whose `(channel, time)`-pair heuristic fires whenever every
filtered train contains exactly two spikes.  On the store `[[1, 2, 3, 4]]`
of length 4 with `m = 2`, each half keeps two spikes, so both `subtime 0 2`
and `subtime 2 4` return stores with no spikes at all, and the reunited
slices cannot equal the original spike multiset as the claim — and the
docstring of `subtime` itself, which promises slicing without loss or
overlap — requires. -/
theorem subtime_pairs_loses_spikes :
    (⟨[[1, 2, 3, 4]], 4⟩ : SpikeData).subtime 0 2
      = .ok { train := [[]], length := 2 } ∧
    (⟨[[1, 2, 3, 4]], 4⟩ : SpikeData).subtime 2 4
      = .ok { train := [[]], length := 2 } ∧
    (([] : List ℚ) : Multiset ℚ) + (([] : List ℚ).map (fun t => t + 2) : List ℚ)
      ≠ (([1, 2, 3, 4] : List ℚ) : Multiset ℚ) := by
  refine ⟨rfl, rfl, ?_⟩
  intro h
  have hc := congrArg Multiset.card h
  simp at hc

/-! Claim C4: avalanche segmentation. -/

lemma everyOther_cons {α : Type} (x : α) (l : List α) :
    everyOther (x :: l) = x :: everyOther l.tail := by
  cases l <;> rfl

lemma everyOther_map {α β : Type} (f : α → β) :
    ∀ l : List α, everyOther (l.map f) = (everyOther l).map f
  | [] => rfl
  | [x] => rfl
  | x :: y :: rest => by
    simp only [List.map_cons, everyOther, List.map, everyOther_map f rest]

lemma everyOther_tail_map {α β : Type} (f : α → β) (l : List α) :
    everyOther (l.map f).tail = (everyOther l.tail).map f := by
  rw [← List.map_tail, everyOther_map]

lemma everyOther_tail_tail_map {α β : Type} (f : α → β) (l : List α) :
    everyOther (l.map f).tail.tail = (everyOther l.tail.tail).map f := by
  rw [← List.map_tail, ← List.map_tail, everyOther_map]

lemma togglesR_nil_all {α : Type} (p : α → Bool) :
    ∀ (c : α) (cs : List α), togglesR p (c :: cs) = [] → ∀ x ∈ cs, p x = p c
  | _, [], _ => by simp
  | c, c2 :: cs', h => by
    simp only [togglesR] at h
    rcases List.append_eq_nil.mp h with ⟨h1, h2⟩
    have hb : p c2 = p c := by
      by_contra hpc
      have hbne : (p c != p c2) = true := bne_iff_ne.mpr (fun he => hpc he.symm)
      rw [hbne] at h1
      simp at h1
    have h2' : togglesR p (c2 :: cs') = [] := List.map_eq_nil_iff.mp h2
    intro x hx
    rcases List.mem_cons.mp hx with rfl | hx'
    · exact hb
    · rw [togglesR_nil_all p c2 cs' h2' x hx', hb]

lemma togglesR_nil_of_all_true {α : Type} (p : α → Bool) :
    ∀ l : List α, (∀ x ∈ l, p x = true) → togglesR p l = []
  | [], _ => rfl
  | [_], _ => rfl
  | c1 :: c2 :: cs, h => by
    have hr := togglesR_nil_of_all_true p (c2 :: cs)
      (fun x hx => h x (List.mem_cons_of_mem c1 hx))
    simp [togglesR, h c1 (by simp), h c2 (by simp), hr]

lemma togglesR_bound {α : Type} (p : α → Bool) :
    ∀ l : List α, ∀ x ∈ togglesR p l, x + 1 < l.length
  | [], x => by simp [togglesR]
  | [_], x => by simp [togglesR]
  | c1 :: c2 :: cs, x => by
    intro hx
    simp only [togglesR] at hx
    rcases List.mem_append.mp hx with h | h
    · have hx0 : x = 0 := by
        by_cases hc : (p c1 != p c2) = true
        · rw [if_pos hc] at h
          simpa using h
        · rw [if_neg hc] at h
          cases h
      subst hx0
      simp only [List.length_cons]
      omega
    · rcases List.mem_map.mp h with ⟨y, hy, rfl⟩
      have := togglesR_bound p (c2 :: cs) y hy
      simp only [List.length_cons] at this ⊢
      omega

lemma togglesR_first {α : Type} (p : α → Bool) :
    ∀ (c : α) (cs : List α) (t : ℕ) (T : List ℕ),
      p c = true → togglesR p (c :: cs) = t :: T →
      (c :: cs).takeWhile p = (c :: cs).take (t + 1) ∧
      (c :: cs).dropWhile p = (c :: cs).drop (t + 1) ∧
      T = (togglesR p ((c :: cs).drop (t + 1))).map (· + (t + 1))
  | _, [], t, T, _, h => by simp [togglesR] at h
  | c, c2 :: cs', t, T, hc, h => by
    by_cases h2 : p c2 = true
    · have hne : (p c != p c2) = false := by rw [hc, h2]; rfl
      simp only [togglesR, hne, Bool.false_eq_true, if_false, List.nil_append] at h
      cases hT : togglesR p (c2 :: cs') with
      | nil =>
        rw [hT] at h
        simp at h
      | cons t0 T0 =>
        rw [hT, List.map_cons] at h
        injection h with ht hT'
        obtain ⟨tw, dw, hT0⟩ := togglesR_first p c2 cs' t0 T0 h2 hT
        subst ht
        subst hT'
        refine ⟨?_, ?_, ?_⟩
        · rw [List.takeWhile_cons, if_pos hc, tw, ← List.take_succ_cons]
        · rw [List.dropWhile_cons, if_pos hc, dw]
          exact List.drop_succ_cons.symm
        · rw [List.drop_succ_cons, hT0, List.map_map]
          refine List.map_congr_left ?_
          intro x _
          simp only [Function.comp_apply]
          omega
    · have h2f : p c2 = false := Bool.not_eq_true _ ▸ h2
      have hne : (p c != p c2) = true := by rw [hc, h2f]; rfl
      simp only [togglesR, hne, if_true, List.singleton_append] at h
      injection h with ht hT'
      subst ht
      subst hT'
      refine ⟨?_, ?_, ?_⟩
      · rw [List.takeWhile_cons, if_pos hc, List.takeWhile_cons, if_neg (by simp [h2f])]
        rfl
      · rw [List.dropWhile_cons, if_pos hc, List.dropWhile_cons, if_neg (by simp [h2f])]
        rfl
      · rfl

lemma toggle_slices_shift {α : Type} (counts : List α) (k : ℕ) (us ds : List ℕ) :
    toggle_slices counts (us.map (· + k)) (ds.map (· + k))
      = toggle_slices (counts.drop k) us ds := by
  unfold toggle_slices
  rw [List.zip_map, List.map_map]
  refine List.map_congr_left ?_
  rintro ⟨u, d⟩ -
  simp only [Function.comp_apply, Prod.map_apply]
  rw [List.drop_drop]
  rw [(by omega : k + (u + 1) = u + k + 1), (by omega : d + k - (u + k) = d - u)]

lemma length_dropWhile_le {α : Type} (p : α → Bool) (l : List α) :
    (l.dropWhile p).length ≤ l.length := by
  conv_rhs => rw [← List.takeWhile_append_dropWhile p l]
  rw [List.length_append]
  omega

lemma dropWhile_head_false {α : Type} (p : α → Bool) :
    ∀ (l : List α) (r : α) (R : List α), l.dropWhile p = r :: R → p r = false
  | [], r, R, h => by simp at h
  | c :: cs, r, R, h => by
    rw [List.dropWhile_cons] at h
    by_cases hc : p c = true
    · rw [if_pos hc] at h
      exact dropWhile_head_false p cs r R h
    · rw [if_neg hc] at h
      injection h with h1 _
      subst h1
      exact Bool.not_eq_true _ ▸ hc

lemma toggle_slices_cons {α : Type} (counts : List α) (u d : ℕ) (us ds : List ℕ) :
    toggle_slices counts (u :: us) (d :: ds)
      = ((counts.drop (u + 1)).take (d - u)) :: toggle_slices counts us ds := rfl

lemma avalanches_from_inactive_head {α : Type} (p : α → Bool) (counts : List α)
    (h : first_active p counts = false) :
    avalanches_from p counts
      = toggle_slices counts (everyOther (togglesR p counts))
          (everyOther (togglesR p counts).tail) := by
  simp [avalanches_from, h]

lemma avalanches_from_active_head {α : Type} (p : α → Bool) (counts : List α)
    (h : first_active p counts = true) :
    avalanches_from p counts
      = toggle_slices counts (everyOther (togglesR p counts).tail)
          (everyOther (togglesR p counts).tail.tail) := by
  simp [avalanches_from, h]

lemma av_nil {α : Type} (p : α → Bool) : avalanches_from p [] = [] := rfl

lemma av_singleton {α : Type} (p : α → Bool) (c : α) : avalanches_from p [c] = [] := by
  unfold avalanches_from
  cases hc : p c <;> simp [first_active, hc, togglesR, everyOther, toggle_slices]

lemma av_cons_reduce {α : Type} (p : α → Bool) (c1 c2 : α) (cs : List α)
    (h : ¬(p c1 = false ∧ p c2 = true)) :
    avalanches_from p (c1 :: c2 :: cs) = avalanches_from p (c2 :: cs) := by
  cases h1 : p c1 <;> cases h2 : p c2
  · have ht : togglesR p (c1 :: c2 :: cs) = (togglesR p (c2 :: cs)).map (· + 1) := by
      simp [togglesR, h1, h2]
    rw [avalanches_from_inactive_head p _ (by simp [first_active, h1]),
      avalanches_from_inactive_head p (c2 :: cs) (by simp [first_active, h2]), ht,
      everyOther_map, everyOther_tail_map, toggle_slices_shift]
    rfl
  · exact absurd ⟨h1, h2⟩ h
  · have ht : togglesR p (c1 :: c2 :: cs) = 0 :: (togglesR p (c2 :: cs)).map (· + 1) := by
      simp [togglesR, h1, h2]
    rw [avalanches_from_active_head p _ (by simp [first_active, h1]),
      avalanches_from_inactive_head p (c2 :: cs) (by simp [first_active, h2]), ht,
      List.tail_cons, everyOther_map, everyOther_tail_map, toggle_slices_shift]
    rfl
  · have ht : togglesR p (c1 :: c2 :: cs) = (togglesR p (c2 :: cs)).map (· + 1) := by
      simp [togglesR, h1, h2]
    rw [avalanches_from_active_head p _ (by simp [first_active, h1]),
      avalanches_from_active_head p (c2 :: cs) (by simp [first_active, h2]), ht,
      everyOther_tail_map, everyOther_tail_tail_map, toggle_slices_shift]
    rfl

lemma av_cons_false_true_nil {α : Type} (p : α → Bool) (c1 c2 : α) (cs : List α)
    (h1 : p c1 = false) (h2 : p c2 = true)
    (hR : (c2 :: cs).dropWhile p = []) :
    avalanches_from p (c1 :: c2 :: cs) = [] := by
  have hall : ∀ x ∈ c2 :: cs, p x = true := List.dropWhile_eq_nil_iff.mp hR
  have hT' : togglesR p (c2 :: cs) = [] := togglesR_nil_of_all_true p _ hall
  have ht : togglesR p (c1 :: c2 :: cs) = [0] := by
    simp [togglesR, h1, h2, hT']
  rw [avalanches_from_inactive_head p _ (by simp [first_active, h1]), ht]
  rfl

lemma av_cons_false_true_cons {α : Type} (p : α → Bool) (c1 c2 : α) (cs : List α)
    (h1 : p c1 = false) (h2 : p c2 = true)
    (hR : (c2 :: cs).dropWhile p ≠ []) :
    avalanches_from p (c1 :: c2 :: cs)
      = (c2 :: cs).takeWhile p :: avalanches_from p ((c2 :: cs).dropWhile p) := by
  cases hT : togglesR p (c2 :: cs) with
  | nil =>
    refine absurd (List.dropWhile_eq_nil_iff.mpr fun x hx => ?_) hR
    rcases List.mem_cons.mp hx with rfl | hx'
    · exact h2
    · rw [togglesR_nil_all p c2 cs hT x hx', h2]
  | cons t T0 =>
    obtain ⟨tw, dw, hT0⟩ := togglesR_first p c2 cs t T0 h2 hT
    have hRne : cs.dropWhile p ≠ [] := by
      rw [List.dropWhile_cons, if_pos h2] at hR
      exact hR
    have hhead : first_active p ((c2 :: cs).dropWhile p) = false := by
      cases hRc : (c2 :: cs).dropWhile p with
      | nil => exact absurd hRc hR
      | cons r R' =>
        have hr := dropWhile_head_false p (c2 :: cs) r R' hRc
        simp [first_active, hr]
    have ht : togglesR p (c1 :: c2 :: cs) = 0 :: (t + 1) :: T0.map (· + 1) := by
      simp [togglesR, h1, h2, hT]
    rw [avalanches_from_inactive_head p _ (by simp [first_active, h1]), ht]
    have hups : everyOther (0 :: (t + 1) :: T0.map (· + 1))
        = 0 :: everyOther (T0.map (· + 1)) := rfl
    have hdowns : everyOther ((0 :: (t + 1) :: T0.map (· + 1)).tail)
        = (t + 1) :: everyOther (T0.map (· + 1)).tail := by
      rw [List.tail_cons, everyOther_cons]
    rw [hups, hdowns, toggle_slices_cons]
    congr 1
    · rw [Nat.sub_zero, List.drop_succ_cons, List.drop_zero, tw]
    · have hU : everyOther (T0.map (· + 1))
          = (everyOther (togglesR p ((c2 :: cs).drop (t + 1)))).map (· + (t + 1 + 1)) := by
        rw [hT0, List.map_map, everyOther_map]
        refine List.map_congr_left fun x _ => ?_
        simp only [Function.comp_apply]
        omega
      have hD : everyOther (T0.map (· + 1)).tail
          = (everyOther (togglesR p ((c2 :: cs).drop (t + 1))).tail).map (· + (t + 1 + 1)) := by
        rw [hT0, List.map_map, ← List.map_tail, everyOther_map]
        refine List.map_congr_left fun x _ => ?_
        simp only [Function.comp_apply]
        omega
      rw [hU, hD, toggle_slices_shift, avalanches_from_inactive_head p _ hhead, dw]
      rw [show t + 1 + 1 = (t + 1) + 1 from rfl, List.drop_succ_cons]

lemma avSpecGo_inRun_nil {α : Type} (p : α → Bool) :
    ∀ (l acc : List α), l.dropWhile p = [] → avSpecGo p (.inRun acc) l = []
  | [], _, _ => rfl
  | c :: cs, acc, h => by
    rw [List.dropWhile_cons] at h
    by_cases hc : p c = true
    · rw [if_pos hc] at h
      simp only [avSpecGo, hc, if_true]
      exact avSpecGo_inRun_nil p cs (acc ++ [c]) h
    · rw [if_neg hc] at h
      cases h

lemma avSpecGo_inRun_cons {α : Type} (p : α → Bool) :
    ∀ (l acc : List α), l.dropWhile p ≠ [] →
      avSpecGo p (.inRun acc) l
        = (acc ++ l.takeWhile p) :: avSpecGo p .idle (l.dropWhile p).tail
  | [], _, h => absurd rfl h
  | c :: cs, acc, h => by
    by_cases hc : p c = true
    · have h' : cs.dropWhile p ≠ [] := by
        rw [List.dropWhile_cons, if_pos hc] at h
        exact h
      simp only [avSpecGo, hc, if_true]
      rw [avSpecGo_inRun_cons p cs (acc ++ [c]) h']
      rw [List.takeWhile_cons, if_pos hc, List.dropWhile_cons, if_pos hc]
      simp [List.append_assoc]
    · have hcf : p c = false := Bool.not_eq_true _ ▸ hc
      simp only [avSpecGo, hcf, Bool.false_eq_true, if_false]
      rw [List.takeWhile_cons, if_neg (by simp [hcf]), List.dropWhile_cons,
        if_neg (by simp [hcf])]
      simp

lemma avalanchesSpec_singleton {α : Type} (p : α → Bool) (c : α) :
    avalanchesSpec p [c] = [] := by
  unfold avalanchesSpec
  cases hc : p c <;> simp [avSpecGo, hc]

lemma avalanchesSpec_reduce {α : Type} (p : α → Bool) (c1 c2 : α) (cs : List α)
    (h : ¬(p c1 = false ∧ p c2 = true)) :
    avalanchesSpec p (c1 :: c2 :: cs) = avalanchesSpec p (c2 :: cs) := by
  unfold avalanchesSpec
  cases h1 : p c1 <;> cases h2 : p c2
  · simp [avSpecGo, h1, h2]
  · exact absurd ⟨h1, h2⟩ h
  · simp [avSpecGo, h1, h2]
  · simp [avSpecGo, h1, h2]

lemma avalanchesSpec_false_true_nil {α : Type} (p : α → Bool) (c1 c2 : α) (cs : List α)
    (h1 : p c1 = false) (h2 : p c2 = true)
    (hR : (c2 :: cs).dropWhile p = []) :
    avalanchesSpec p (c1 :: c2 :: cs) = [] := by
  unfold avalanchesSpec
  simp only [avSpecGo, h1, Bool.false_eq_true, if_false, h2, if_true]
  apply avSpecGo_inRun_nil
  rw [List.dropWhile_cons, if_pos h2] at hR
  exact hR

lemma avalanchesSpec_false_true_cons {α : Type} (p : α → Bool) (c1 c2 : α) (cs : List α)
    (h1 : p c1 = false) (h2 : p c2 = true)
    (hR : (c2 :: cs).dropWhile p ≠ []) :
    avalanchesSpec p (c1 :: c2 :: cs)
      = (c2 :: cs).takeWhile p :: avalanchesSpec p ((c2 :: cs).dropWhile p) := by
  have hRne : cs.dropWhile p ≠ [] := by
    rw [List.dropWhile_cons, if_pos h2] at hR
    exact hR
  unfold avalanchesSpec
  simp only [avSpecGo, h1, Bool.false_eq_true, if_false, h2, if_true]
  rw [avSpecGo_inRun_cons p cs [c2] hRne]
  rw [List.takeWhile_cons, if_pos h2, List.dropWhile_cons, if_pos h2]
  congr 1
  cases hRc : cs.dropWhile p with
  | nil => exact absurd hRc hRne
  | cons r R' =>
    have hr : p r = false := dropWhile_head_false p cs r R' hRc
    simp [avSpecGo, hr]

lemma avalanches_from_eq_spec {α : Type} (p : α → Bool) (counts : List α) :
    avalanches_from p counts = avalanchesSpec p counts := by
  suffices H : ∀ (n : ℕ) (l : List α), l.length ≤ n →
      avalanches_from p l = avalanchesSpec p l by
    exact H counts.length counts le_rfl
  intro n
  induction n with
  | zero =>
    intro l hl
    obtain rfl := List.length_eq_zero.mp (Nat.le_zero.mp hl)
    rfl
  | succ n ih =>
    intro l hl
    rcases l with _ | ⟨c1, _ | ⟨c2, cs⟩⟩
    · rfl
    · rw [av_singleton, avalanchesSpec_singleton]
    · by_cases hft : p c1 = false ∧ p c2 = true
      · obtain ⟨h1, h2⟩ := hft
        by_cases hR : (c2 :: cs).dropWhile p = []
        · rw [av_cons_false_true_nil p c1 c2 cs h1 h2 hR,
            avalanchesSpec_false_true_nil p c1 c2 cs h1 h2 hR]
        · rw [av_cons_false_true_cons p c1 c2 cs h1 h2 hR,
            avalanchesSpec_false_true_cons p c1 c2 cs h1 h2 hR]
          congr 1
          apply ih
          have hd := length_dropWhile_le p (c2 :: cs)
          simp only [List.length_cons] at hl hd ⊢
          omega
      · rw [av_cons_reduce p c1 c2 cs hft, avalanchesSpec_reduce p c1 c2 cs hft]
        apply ih
        simp only [List.length_cons] at hl ⊢
        omega

/-- Claim C4: the avalanches emitted by the toggle-pairing code are exactly
the maximal super-threshold runs preceded by an observed inactive-to-active
transition and followed by an observed active-to-inactive transition; a run
active at the first bin, or still active at the last bin, is never emitted
(equality with the machine written from the spec text, for every threshold
and every count sequence, hence in particular for `SpikeData.avalanches`);
and the worked example: counts `[0,0,5,6,2,0,0,4,0]` with threshold `3` give
avalanches `[[5,6],[4]]`, sizes `[11,4]`, durations `[2,1]`. -/
theorem avalanches_toggle_eq_interior_runs :
    (∀ (thresh : ℚ) (counts : List ℕ),
      avalanches_from (fun c : ℕ => decide ((c : ℚ) > thresh)) counts
        = avalanchesSpec (fun c : ℕ => decide ((c : ℚ) > thresh)) counts) ∧
    (∀ (sd : SpikeData) (thresh bin_size : ℚ),
      sd.avalanches thresh bin_size
        = avalanchesSpec (fun c : ℕ => decide ((c : ℚ) > thresh)) (sd.binned bin_size)) ∧
    avalanches_from (fun c : ℕ => decide ((c : ℚ) > 3)) [0, 0, 5, 6, 2, 0, 0, 4, 0]
      = [[5, 6], [4]] ∧
    (avalanches_from (fun c : ℕ => decide ((c : ℚ) > 3)) [0, 0, 5, 6, 2, 0, 0, 4, 0]).map
        List.sum = [11, 4] ∧
    (avalanches_from (fun c : ℕ => decide ((c : ℚ) > 3)) [0, 0, 5, 6, 2, 0, 0, 4, 0]).map
        List.length = [2, 1] := by
  refine ⟨fun thresh counts => avalanches_from_eq_spec _ counts,
    fun sd thresh bin_size => avalanches_from_eq_spec _ _, ?_, ?_, ?_⟩ <;> decide

end Verification

end Braingeneers
